import Mathlib

/-!
Shallow embedding of the `bitvec-rs` crate (`src/lib.rs`): a bit vector
with a guaranteed `[u8]` LSB-0 representation backed by a growable byte
buffer.  Bytes are modelled as `Nat` values; the u8 range (`< 256`) is
carried as an explicit well-formedness fact where it matters.  Panics
(`assert!`, out-of-range `set`/`swap`) are modelled by `Option`-valued
results (`none` = panic).  `Vec<u8>` is modelled as `List Nat`.
-/

namespace BitvecRs

/-- Embeds `bytes_in_bits` (lib.rs:75-78): number of bytes needed for
`nbits` bits, `ceil(nbits / 8)`. -/
def bytes_in_bits (nbits : Nat) : Nat := (nbits + 7) / 8

/-- Embeds `byte_from_bool` (lib.rs:80-82): `!0u8` (all ones) for `true`,
`0u8` for `false`. -/
def byte_from_bool (bit : Bool) : Nat := if bit then 255 else 0

/-- Embeds `struct BitVec` (lib.rs:36-39): a bit count plus the backing
byte vector. -/
structure BitVec where
  nbits : Nat
  vec : List Nat
deriving Repr, DecidableEq

namespace BitVec

/-- Embeds `BitVec::new` (lib.rs:106-108). -/
def new : BitVec := { vec := [], nbits := 0 }

/-- Embeds `BitVec::with_capacity` (lib.rs:114-116); capacity is not
observable in the model, so the state is the empty vector. -/
def with_capacity (_capacity : Nat) : BitVec := { vec := [], nbits := 0 }

/-- Embeds `BitVec::get_unchecked` (lib.rs:212-216): read byte
`index / 8`, test bit `index % 8` via the mask `1u8 << (index % 8)`. -/
def get_unchecked (v : BitVec) (index : Nat) : Bool :=
  let byte := v.vec.getD (index / 8) 0
  let pattern := 1 <<< (index % 8)
  byte &&& pattern != 0

/-- Embeds `BitVec::set_unchecked` (lib.rs:219-224): or the mask in for
`true`, and with the complement (`!pattern` on u8 is `255 ^^^ pattern`)
for `false`.  Out-of-range `List.set` is a no-op; theorems about states
where the source would have undefined behavior carry the bounds. -/
def set_unchecked (v : BitVec) (index : Nat) (value : Bool) : BitVec :=
  let byte := v.vec.getD (index / 8) 0
  let pattern := 1 <<< (index % 8)
  let newByte := if value then byte ||| pattern else byte &&& (255 ^^^ pattern)
  { v with vec := v.vec.set (index / 8) newByte }

/-- Embeds `BitVec::set_unused_zero` (lib.rs:309-318): mask the final
byte with `(1 << (nbits % 8)) - 1`; early return when `nbits % 8 == 0`.
The source wraps the subtraction in `Wrapping`, but with
`nbits % 8 ∈ 1..7` the shift is `2..128` so no wrap occurs. -/
def set_unused_zero (v : BitVec) : BitVec :=
  if v.nbits % 8 = 0 then v
  else
    let len := v.vec.length
    let byte := v.vec.getD (len - 1) 0
    let pattern := (1 <<< (v.nbits % 8)) - 1
    { v with vec := v.vec.set (len - 1) (byte &&& pattern) }

/-- Embeds `BitVec::from_bytes` (lib.rs:119-123). -/
def from_bytes (bytes : List Nat) : BitVec :=
  set_unused_zero { vec := bytes, nbits := bytes.length * 8 }

/-- Embeds `BitVec::push` (lib.rs:230-238): on a byte boundary push the
byte `1u8`/`0u8`, otherwise set the bit in place; then increment. -/
def push (v : BitVec) (value : Bool) : BitVec :=
  if v.nbits % 8 = 0 then
    { nbits := v.nbits + 1, vec := v.vec ++ [if value then 1 else 0] }
  else
    { nbits := v.nbits + 1, vec := (v.set_unchecked v.nbits value).vec }

/-- Embeds `BitVec::from_bools` (lib.rs:126-132). -/
def from_bools (bools : List Bool) : BitVec :=
  bools.foldl (fun v b => v.push b) (with_capacity bools.length)

/-- Embeds `BitVec::from_elem` (lib.rs:135-142). -/
def from_elem (len : Nat) (value : Bool) : BitVec :=
  set_unused_zero
    { vec := List.replicate (bytes_in_bits len) (byte_from_bool value), nbits := len }

/-- Embeds `BitVec::as_bytes` (lib.rs:153). -/
def as_bytes (v : BitVec) : List Nat := v.vec

/-- Embeds `BitVec::with_bytes_mut` (lib.rs:157-161).  The closure
mutates the byte slice in place; its effect is abstracted as the
resulting byte list `newVec`.  A `&mut [u8]` cannot change the length
and holds u8 values, which is carried as hypotheses where this is used. -/
def with_bytes_mut (v : BitVec) (newVec : List Nat) : BitVec :=
  set_unused_zero { v with vec := newVec }

/-- Embeds `BitVec::into_bytes` (lib.rs:166). -/
def into_bytes (v : BitVec) : List Nat := v.vec

/-- Embeds `BitVec::len` (lib.rs:172). -/
def len (v : BitVec) : Nat := v.nbits

/-- Embeds `BitVec::is_empty` (lib.rs:175). -/
def is_empty (v : BitVec) : Bool := v.nbits == 0

/-- Embeds `BitVec::validate_index` (lib.rs:178-182): `true` iff neither
panic fires, i.e. `nbits <= vec.len() * 8` and `index < nbits`. -/
def validate_index (v : BitVec) (index : Nat) : Bool :=
  decide (v.nbits ≤ v.vec.length * 8) && decide (index < v.nbits)

/-- Embeds `BitVec::get` (lib.rs:185-191). -/
def get (v : BitVec) (index : Nat) : Option Bool :=
  if index < v.len then some (v.get_unchecked index) else none

/-- Embeds `BitVec::set` (lib.rs:194-197); `none` models the panic in
`validate_index`. -/
def set (v : BitVec) (index : Nat) (value : Bool) : Option BitVec :=
  if v.validate_index index then some (v.set_unchecked index value) else none

/-- Embeds `BitVec::swap` (lib.rs:200-209); `none` models a panic in
either `validate_index` call. -/
def swap (v : BitVec) (i j : Nat) : Option BitVec :=
  if v.validate_index i then
    if v.validate_index j then
      let val_i := v.get_unchecked i
      let val_j := v.get_unchecked j
      some ((v.set_unchecked i val_j).set_unchecked j val_i)
    else none
  else none

/-- Embeds `BitVec::pop` (lib.rs:241-259): decrement, read and clear the
bit at the new length, and drop the trailing byte when the new length is
byte-aligned.  The sequential mutation is flattened: the read and the
clear both act at index `nbits - 1` of the original bytes, and the
`self.nbits % 8 == 0` check (taken after the decrement) is the hoisted
`(v.nbits - 1) % 8 = 0`.  The source's `assert!` before the byte pop is
a sanity check of the byte-count invariant; it is proved to hold on
well-formed states in `pop_assert_ok` below. -/
def pop (v : BitVec) : Option Bool × BitVec :=
  if v.nbits = 0 then (none, v)
  else if (v.nbits - 1) % 8 = 0 then
    (some (v.get_unchecked (v.nbits - 1)),
      { nbits := v.nbits - 1, vec := (v.set_unchecked (v.nbits - 1) false).vec.dropLast })
  else
    (some (v.get_unchecked (v.nbits - 1)),
      { nbits := v.nbits - 1, vec := (v.set_unchecked (v.nbits - 1) false).vec })

/-- Embeds `BitVec::clear` (lib.rs:262-265). -/
def clear (_v : BitVec) : BitVec := { vec := [], nbits := 0 }

/-- Embeds `BitVec::reserve` (lib.rs:274-276); capacity is not
observable in the model, so the state is unchanged. -/
def reserve (v : BitVec) (_additional : Nat) : BitVec := v

/-- Embeds `BitVec::truncate` (lib.rs:281-288). -/
def truncate (v : BitVec) (len : Nat) : BitVec :=
  if len < v.len then
    set_unused_zero { vec := v.vec.take (bytes_in_bits len), nbits := len }
  else v

/-- Embeds the `for _ in 0..additional` push loop in `resize`
(lib.rs:296-298). -/
def pushRepeat (v : BitVec) (count : Nat) (value : Bool) : BitVec :=
  match count with
  | 0 => v
  | n + 1 => pushRepeat (v.push value) n value

/-- Embeds `BitVec::resize` (lib.rs:292-302). -/
def resize (v : BitVec) (new_len : Nat) (value : Bool) : BitVec :=
  if new_len > v.len then
    pushRepeat (v.reserve (new_len - v.len)) (new_len - v.len) value
  else
    v.truncate new_len

/-- Embeds the derived `PartialEq` for `BitVec` (lib.rs:35): field-wise
comparison of `nbits` and `vec`. -/
def beq (a b : BitVec) : Bool := a.nbits == b.nbits && a.vec == b.vec

end BitVec

/-- Embeds the iterator state (lib.rs:504-515): a `BitVec` plus a cursor
`index`. -/
structure Iter where
  vec : BitVec
  index : Nat
deriving Repr, DecidableEq

namespace Iter

/-- Embeds `Iterator::next` from `impl_iter!` (lib.rs:484-492). -/
def next (it : Iter) : Option Bool × Iter :=
  if it.index ≥ it.vec.nbits then (none, it)
  else (some (it.vec.get_unchecked it.index), { it with index := it.index + 1 })

/-- Embeds `Iterator::nth` from `impl_iter!` (lib.rs:475-482): saturate
the cursor, then delegate to `next`. -/
def nth (it : Iter) (count : Nat) : Option Bool × Iter :=
  Iter.next
    { it with
      index := if count ≥ it.vec.nbits - it.index then it.vec.nbits else it.index + count }

end Iter

/-- Embeds `BitVec::iter` (lib.rs:330-332, 525-534): cursor at 0. -/
def BitVec.iter (v : BitVec) : Iter := { vec := v, index := 0 }

/-! Specification-side definitions used to state the claims. -/

/-- Reads bit `i` of a byte list under the LSB-0 addressing scheme:
byte `i / 8`, bit offset `i % 8` from the least significant bit. -/
def bitAt (bytes : List Nat) (i : Nat) : Bool :=
  (bytes.getD (i / 8) 0).testBit (i % 8)

/-- Every stored byte is in u8 range. -/
def ByteBound (bytes : List Nat) : Prop :=
  ∀ j, j < bytes.length → bytes.getD j 0 < 256

/-- Zero-padding invariant: every storage bit at position at or beyond
`nbits` is 0. -/
def ZeroPadded (v : BitVec) : Prop :=
  ∀ i, i < 8 * v.vec.length → v.nbits ≤ i → bitAt v.vec i = false

/-- Representation invariant of a `BitVec`: the byte count matches
`bytes_in_bits nbits`, bytes are u8 values, and unused bits are zero. -/
def WF (v : BitVec) : Prop :=
  v.vec.length = bytes_in_bits v.nbits ∧ ByteBound v.vec ∧ ZeroPadded v

instance (bytes : List Nat) : Decidable (ByteBound bytes) := by
  unfold ByteBound; infer_instance

instance (v : BitVec) : Decidable (ZeroPadded v) := by
  unfold ZeroPadded; infer_instance

instance (v : BitVec) : Decidable (WF v) := by
  unfold WF; infer_instance

/-- States reachable through the public constructors and mutating
operations of the crate.  Constructor arguments coming from Rust u8
slices carry the u8 range; the `with_bytes_mut` closure mutates a
`&mut [u8]` slice, which fixes the length and keeps values in u8
range. -/
inductive Reachable : BitVec → Prop where
  | new : Reachable BitVec.new
  | with_capacity (c : Nat) : Reachable (BitVec.with_capacity c)
  | from_bytes (bytes : List Nat) (hb : ByteBound bytes) :
      Reachable (BitVec.from_bytes bytes)
  | from_bools (bools : List Bool) : Reachable (BitVec.from_bools bools)
  | from_elem (len : Nat) (value : Bool) : Reachable (BitVec.from_elem len value)
  | push (v : BitVec) (value : Bool) : Reachable v → Reachable (v.push value)
  | pop (v : BitVec) : Reachable v → Reachable (v.pop).2
  | set (v v' : BitVec) (index : Nat) (value : Bool) :
      Reachable v → v.set index value = some v' → Reachable v'
  | swap (v v' : BitVec) (i j : Nat) :
      Reachable v → v.swap i j = some v' → Reachable v'
  | truncate (v : BitVec) (len : Nat) : Reachable v → Reachable (v.truncate len)
  | resize (v : BitVec) (new_len : Nat) (value : Bool) :
      Reachable v → Reachable (v.resize new_len value)
  | with_bytes_mut (v : BitVec) (newVec : List Nat)
      (hlen : newVec.length = v.vec.length) (hb : ByteBound newVec) :
      Reachable v → Reachable (v.with_bytes_mut newVec)
  | clear (v : BitVec) : Reachable v → Reachable v.clear

/-- Pushing a list of booleans in order, as `Extend`/`from_bools` do. -/
def pushSeq (v : BitVec) (bools : List Bool) : BitVec :=
  bools.foldl BitVec.push v

/-- Popping `n` times, collecting the returned values in pop order. -/
def popSeq : BitVec → Nat → List (Option Bool) × BitVec
  | v, 0 => ([], v)
  | v, n + 1 =>
    let r := v.pop
    let rest := popSeq r.2 n
    (r.1 :: rest.1, rest.2)

/-! Helper lemmas about bytes and bit access. -/

theorem getD_set_self {l : List Nat} {i : Nat} (h : i < l.length) (a : Nat) :
    (l.set i a).getD i 0 = a := by
  simp [List.getD_eq_getElem?_getD, List.getElem?_set_self h]

theorem getD_set_ne {l : List Nat} {i j : Nat} (h : i ≠ j) (a : Nat) :
    (l.set i a).getD j 0 = l.getD j 0 := by
  simp [List.getD_eq_getElem?_getD, List.getElem?_set_ne h]

theorem land_shift_ne_zero (a k : Nat) : ((a &&& (1 <<< k)) != 0) = a.testBit k := by
  rw [Nat.one_shiftLeft]
  cases h : a.testBit k with
  | false =>
    have hz : a &&& 2 ^ k = 0 := Nat.eq_of_testBit_eq fun i => by
      rw [Nat.testBit_and, Nat.testBit_two_pow, Nat.zero_testBit]
      rcases eq_or_ne k i with rfl | hne
      · simp [h]
      · simp [hne]
    simp [hz]
  | true =>
    have ht : (a &&& 2 ^ k).testBit k = true := by
      rw [Nat.testBit_and, h, Nat.testBit_two_pow]; simp
    have hne : a &&& 2 ^ k ≠ 0 := fun h0 => by
      rw [h0, Nat.zero_testBit] at ht; exact Bool.false_ne_true ht
    simp [bne_iff_ne, hne]

theorem get_unchecked_eq_bitAt (v : BitVec) (i : Nat) :
    v.get_unchecked i = bitAt v.vec i := by
  unfold BitVec.get_unchecked bitAt
  exact land_shift_ne_zero _ _

theorem testBit_of_ge_eight {a m : Nat} (ha : a < 256) (hm : 8 ≤ m) :
    a.testBit m = false := by
  refine Nat.testBit_lt_two_pow (Nat.lt_of_lt_of_le ha ?_)
  calc (256 : Nat) = 2 ^ 8 := by norm_num
    _ ≤ 2 ^ m := Nat.pow_le_pow_right (by norm_num) hm

theorem byte_eq_of_testBit_eq {a b : Nat} (ha : a < 256) (hb : b < 256)
    (h : ∀ k, k < 8 → a.testBit k = b.testBit k) : a = b := by
  refine Nat.eq_of_testBit_eq fun k => ?_
  rcases Nat.lt_or_ge k 8 with hk | hk
  · exact h k hk
  · rw [testBit_of_ge_eight ha hk, testBit_of_ge_eight hb hk]

theorem testBit_and_mask {k : Nat} (hk : k < 8) (a m : Nat) :
    (a &&& (255 ^^^ 2 ^ k)).testBit m
      = (a.testBit m && decide (m < 8) && !decide (k = m)) := by
  have h255 : (255 : Nat) = 2 ^ 8 - 1 := by norm_num
  rw [Nat.testBit_and, Nat.testBit_xor, h255, Nat.testBit_two_pow_sub_one,
    Nat.testBit_two_pow]
  by_cases h1 : m < 8 <;> by_cases h2 : k = m <;> (simp [h1, h2]; try omega)

theorem pattern_lt_256 {k : Nat} (hk : k < 8) : 2 ^ k < 256 := by
  calc (2 : Nat) ^ k < 2 ^ 8 := Nat.pow_lt_pow_right (by norm_num) hk
    _ = 256 := by norm_num

/-! Lemmas about `set_unchecked`. -/

theorem length_set_unchecked (v : BitVec) (i : Nat) (b : Bool) :
    (v.set_unchecked i b).vec.length = v.vec.length := by
  simp [BitVec.set_unchecked]

theorem nbits_set_unchecked (v : BitVec) (i : Nat) (b : Bool) :
    (v.set_unchecked i b).nbits = v.nbits := rfl

theorem bitAt_set_unchecked (v : BitVec) (i : Nat) (b : Bool)
    (h : i / 8 < v.vec.length) (j : Nat) :
    bitAt (v.set_unchecked i b).vec j = if j = i then b else bitAt v.vec j := by
  unfold BitVec.set_unchecked bitAt
  simp only [Nat.one_shiftLeft]
  by_cases hdiv : j / 8 = i / 8
  · rw [hdiv, getD_set_self h]
    by_cases hmod : j % 8 = i % 8
    · have hj : j = i := by omega
      subst hj
      cases b with
      | true => simp [Nat.testBit_or, Nat.testBit_two_pow]
      | false => simp [testBit_and_mask (Nat.mod_lt _ (by norm_num))]
    · have hj : j ≠ i := by omega
      rw [if_neg hj]
      have hk : i % 8 < 8 := Nat.mod_lt _ (by norm_num)
      have h1 : j % 8 < 8 := Nat.mod_lt _ (by norm_num)
      have h2 : i % 8 ≠ j % 8 := fun hh => hmod hh.symm
      cases b with
      | true => simp [Nat.testBit_or, Nat.testBit_two_pow, h2]
      | false => simp [testBit_and_mask hk, h1, h2]
  · have hj : j ≠ i := by omega
    rw [if_neg hj, getD_set_ne (fun hh => hdiv hh.symm)]

theorem byteBound_set_unchecked {v : BitVec} (hb : ByteBound v.vec) (i : Nat) (b : Bool) :
    ByteBound (v.set_unchecked i b).vec := by
  intro j hj
  rw [length_set_unchecked] at hj
  unfold BitVec.set_unchecked
  simp only [Nat.one_shiftLeft]
  by_cases hdiv : i / 8 = j
  · subst hdiv
    rw [getD_set_self hj]
    cases b with
    | true =>
      have h2 : (2 : Nat) ^ (i % 8) < 256 := pattern_lt_256 (Nat.mod_lt _ (by norm_num))
      have h256 : (256 : Nat) = 2 ^ 8 := by norm_num
      rw [h256] at h2 ⊢
      exact Nat.or_lt_two_pow (h256 ▸ hb _ hj) h2
    | false =>
      exact Nat.lt_of_le_of_lt Nat.and_le_left (hb _ hj)
  · rw [getD_set_ne hdiv]
    exact hb j hj

theorem getD_append_left {l₁ l₂ : List Nat} {j : Nat} (h : j < l₁.length) :
    (l₁ ++ l₂).getD j 0 = l₁.getD j 0 := by
  simp [List.getD_eq_getElem?_getD, List.getElem?_append_left h]

theorem getD_concat_length {l : List Nat} (a : Nat) :
    (l ++ [a]).getD l.length 0 = a := by
  simp [List.getD_eq_getElem?_getD, List.getElem?_concat_length]

theorem getD_take {l : List Nat} {j k : Nat} (h : j < k) :
    (l.take k).getD j 0 = l.getD j 0 := by
  simp [List.getD_eq_getElem?_getD, List.getElem?_take_of_lt h]

theorem getD_dropLast {l : List Nat} {j : Nat} (h : j < l.length - 1) :
    l.dropLast.getD j 0 = l.getD j 0 := by
  rw [List.getD_eq_getElem?_getD, List.getD_eq_getElem?_getD, List.getElem?_dropLast,
    if_pos h]

/-! Lemmas about `set_unused_zero` and preservation of the representation
invariant by every operation. -/

theorem nbits_set_unused_zero (v : BitVec) : v.set_unused_zero.nbits = v.nbits := by
  unfold BitVec.set_unused_zero
  split <;> rfl

theorem length_set_unused_zero (v : BitVec) :
    v.set_unused_zero.vec.length = v.vec.length := by
  unfold BitVec.set_unused_zero
  split <;> simp

theorem wf_set_unused_zero {v : BitVec}
    (hcount : v.vec.length = bytes_in_bits v.nbits) (hb : ByteBound v.vec) :
    WF v.set_unused_zero := by
  unfold BitVec.set_unused_zero
  by_cases h0 : v.nbits % 8 = 0
  · rw [if_pos h0]
    refine ⟨hcount, hb, fun i hi hni => ?_⟩
    unfold bytes_in_bits at hcount
    omega
  · rw [if_neg h0]
    have hlen : 0 < v.vec.length := by
      unfold bytes_in_bits at hcount; omega
    refine ⟨by simpa using hcount, ?_, ?_⟩
    · intro j hj
      simp only [List.length_set] at hj
      by_cases hdiv : v.vec.length - 1 = j
      · subst hdiv
        rw [getD_set_self (by omega)]
        exact Nat.lt_of_le_of_lt Nat.and_le_left (hb _ (by omega))
      · rw [getD_set_ne hdiv]
        exact hb j hj
    · intro i hi hni
      simp only [List.length_set] at hi
      simp only [nbits_set_unused_zero] at hni
      have hdiv : i / 8 = v.vec.length - 1 := by
        unfold bytes_in_bits at hcount; omega
      have hmod : ¬(i % 8 < v.nbits % 8) := by
        unfold bytes_in_bits at hcount; omega
      unfold bitAt
      rw [hdiv, getD_set_self (by omega), Nat.one_shiftLeft, Nat.testBit_and,
        Nat.testBit_two_pow_sub_one]
      simp [hmod]

theorem wf_set_unchecked {v : BitVec} (h : WF v) {i : Nat} (hi : i < v.nbits)
    (b : Bool) : WF (v.set_unchecked i b) := by
  obtain ⟨hcount, hb, hz⟩ := h
  have hdiv : i / 8 < v.vec.length := by
    unfold bytes_in_bits at hcount; omega
  refine ⟨by rw [length_set_unchecked]; exact hcount, byteBound_set_unchecked hb i b, ?_⟩
  intro j hj hnj
  rw [length_set_unchecked] at hj
  rw [nbits_set_unchecked] at hnj
  rw [bitAt_set_unchecked v i b hdiv j, if_neg (by omega)]
  exact hz j hj hnj

theorem wf_push {v : BitVec} (h : WF v) (b : Bool) : WF (v.push b) := by
  obtain ⟨hcount, hb, hz⟩ := h
  unfold BitVec.push
  by_cases h0 : v.nbits % 8 = 0
  · rw [if_pos h0]
    have hn : 8 * v.vec.length = v.nbits := by
      unfold bytes_in_bits at hcount; omega
    refine ⟨?_, ?_, ?_⟩
    · show (v.vec ++ [if b = true then 1 else 0]).length = bytes_in_bits (v.nbits + 1)
      simp only [List.length_append, List.length_cons, List.length_nil]
      unfold bytes_in_bits
      omega
    · intro j hj
      have hj' : j < (v.vec ++ [if b = true then 1 else 0]).length := hj
      simp only [List.length_append, List.length_cons, List.length_nil] at hj'
      show (v.vec ++ [if b = true then 1 else 0]).getD j 0 < 256
      rcases Nat.lt_or_ge j v.vec.length with hjl | hjl
      · rw [getD_append_left hjl]
        exact hb j hjl
      · have hje : j = v.vec.length := by omega
        subst hje
        rw [getD_concat_length]
        cases b <;> norm_num
    · intro i hi hni
      have hi' : i < 8 * (v.vec ++ [if b = true then 1 else 0]).length := hi
      have hni' : v.nbits + 1 ≤ i := hni
      simp only [List.length_append, List.length_cons, List.length_nil] at hi'
      show bitAt (v.vec ++ [if b = true then 1 else 0]) i = false
      unfold bitAt
      rcases Nat.lt_or_ge (i / 8) v.vec.length with hdl | hdl
      · rw [getD_append_left hdl]
        exact hz i (by omega) (by omega)
      · have hde : i / 8 = v.vec.length := by omega
        rw [hde, getD_concat_length]
        have hm : i % 8 ≠ 0 := by omega
        cases b with
        | true =>
          have h1 : (1 : Nat) = 2 ^ 0 := rfl
          simp only [if_true, h1, Nat.testBit_two_pow]
          simpa using fun hh => hm hh.symm
        | false => simp
  · rw [if_neg h0]
    have hdiv : v.nbits / 8 < v.vec.length := by
      unfold bytes_in_bits at hcount; omega
    refine ⟨?_, ?_, ?_⟩
    · show (v.set_unchecked v.nbits b).vec.length = bytes_in_bits (v.nbits + 1)
      rw [length_set_unchecked, hcount]
      unfold bytes_in_bits
      omega
    · intro j hj
      exact byteBound_set_unchecked hb v.nbits b j hj
    · intro i hi hni
      have hi' : i < 8 * (v.set_unchecked v.nbits b).vec.length := hi
      have hni' : v.nbits + 1 ≤ i := hni
      rw [length_set_unchecked] at hi'
      show bitAt (v.set_unchecked v.nbits b).vec i = false
      rw [bitAt_set_unchecked v v.nbits b hdiv i, if_neg (by omega)]
      exact hz i hi' (by omega)

theorem wf_pop {v : BitVec} (h : WF v) : WF (v.pop).2 := by
  obtain ⟨hcount, hb, hz⟩ := h
  unfold BitVec.pop
  by_cases h0 : v.nbits = 0
  · rw [if_pos h0]
    exact ⟨hcount, hb, hz⟩
  · rw [if_neg h0]
    have hdiv : (v.nbits - 1) / 8 < v.vec.length := by
      unfold bytes_in_bits at hcount; omega
    have hlen : (v.set_unchecked (v.nbits - 1) false).vec.length = v.vec.length :=
      length_set_unchecked v _ false
    have hbit := bitAt_set_unchecked v (v.nbits - 1) false hdiv
    have hb₂ : ByteBound (v.set_unchecked (v.nbits - 1) false).vec :=
      byteBound_set_unchecked hb _ false
    by_cases ha : (v.nbits - 1) % 8 = 0
    · rw [if_pos ha]
      refine ⟨?_, ?_, ?_⟩
      · show (v.set_unchecked (v.nbits - 1) false).vec.dropLast.length
            = bytes_in_bits (v.nbits - 1)
        rw [List.length_dropLast, hlen]
        unfold bytes_in_bits at hcount ⊢
        omega
      · intro j hj
        have hj' : j < (v.set_unchecked (v.nbits - 1) false).vec.dropLast.length := hj
        rw [List.length_dropLast, hlen] at hj'
        show (v.set_unchecked (v.nbits - 1) false).vec.dropLast.getD j 0 < 256
        rw [getD_dropLast (by rw [hlen]; omega)]
        exact hb₂ j (by rw [hlen]; omega)
      · intro i hi hni
        have hi' : i < 8 * (v.set_unchecked (v.nbits - 1) false).vec.dropLast.length := hi
        have hni' : v.nbits - 1 ≤ i := hni
        rw [List.length_dropLast, hlen] at hi'
        unfold bytes_in_bits at hcount
        exact absurd hni' (by omega)
    · rw [if_neg ha]
      refine ⟨?_, ?_, ?_⟩
      · show (v.set_unchecked (v.nbits - 1) false).vec.length = bytes_in_bits (v.nbits - 1)
        rw [hlen]
        unfold bytes_in_bits at hcount ⊢
        omega
      · intro j hj
        exact hb₂ j hj
      · intro i hi hni
        have hi' : i < 8 * (v.set_unchecked (v.nbits - 1) false).vec.length := hi
        have hni' : v.nbits - 1 ≤ i := hni
        rw [hlen] at hi'
        show bitAt (v.set_unchecked (v.nbits - 1) false).vec i = false
        rw [hbit i]
        by_cases hie : i = v.nbits - 1
        · rw [if_pos hie]
        · rw [if_neg hie]
          exact hz i hi' (by omega)

theorem wf_new : WF BitVec.new := by decide

theorem wf_with_capacity (c : Nat) : WF (BitVec.with_capacity c) := wf_new

theorem wf_from_bytes {bytes : List Nat} (hb : ByteBound bytes) :
    WF (BitVec.from_bytes bytes) := by
  apply wf_set_unused_zero
  · show bytes.length = bytes_in_bits (bytes.length * 8)
    unfold bytes_in_bits
    omega
  · exact hb

theorem wf_pushSeq {v : BitVec} (h : WF v) (bools : List Bool) :
    WF (pushSeq v bools) := by
  induction bools generalizing v with
  | nil => exact h
  | cons a l ih => exact ih (wf_push h a)

theorem wf_from_bools (bools : List Bool) : WF (BitVec.from_bools bools) :=
  wf_pushSeq (wf_with_capacity bools.length) bools

theorem wf_from_elem (len : Nat) (value : Bool) : WF (BitVec.from_elem len value) := by
  apply wf_set_unused_zero
  · simp [bytes_in_bits]
  · intro j hj
    simp only [List.length_replicate] at hj
    rw [List.getD_eq_getElem?_getD, List.getElem?_replicate_of_lt hj]
    cases value <;> simp [byte_from_bool]

theorem wf_pushRepeat {v : BitVec} (h : WF v) (count : Nat) (b : Bool) :
    WF (v.pushRepeat count b) := by
  induction count generalizing v with
  | zero => exact h
  | succ n ih => exact ih (wf_push h b)

theorem wf_truncate {v : BitVec} (h : WF v) (len : Nat) : WF (v.truncate len) := by
  obtain ⟨hcount, hb, hz⟩ := h
  unfold BitVec.truncate
  by_cases hlt : len < v.len
  · rw [if_pos hlt]
    apply wf_set_unused_zero
    · show (v.vec.take (bytes_in_bits len)).length = bytes_in_bits len
      rw [List.length_take, hcount]
      unfold bytes_in_bits
      have : len < v.nbits := hlt
      omega
    · intro j hj
      rw [List.length_take] at hj
      rw [getD_take (by omega)]
      exact hb j (by omega)
  · rw [if_neg hlt]
    exact ⟨hcount, hb, hz⟩

theorem wf_resize {v : BitVec} (h : WF v) (new_len : Nat) (value : Bool) :
    WF (v.resize new_len value) := by
  unfold BitVec.resize
  by_cases hgt : new_len > v.len
  · rw [if_pos hgt]
    exact wf_pushRepeat h _ value
  · rw [if_neg hgt]
    exact wf_truncate h new_len

theorem wf_with_bytes_mut {v : BitVec} (h : WF v) {newVec : List Nat}
    (hlen : newVec.length = v.vec.length) (hb : ByteBound newVec) :
    WF (v.with_bytes_mut newVec) := by
  obtain ⟨hcount, -, -⟩ := h
  exact wf_set_unused_zero (by simpa [hlen] using hcount) hb

theorem wf_clear (v : BitVec) : WF v.clear := wf_new

theorem wf_set {v v' : BitVec} (h : WF v) {index : Nat} {value : Bool}
    (hs : v.set index value = some v') : WF v' := by
  unfold BitVec.set at hs
  split at hs
  · next hvalid =>
    rw [BitVec.validate_index, Bool.and_eq_true, decide_eq_true_eq,
      decide_eq_true_eq] at hvalid
    cases hs
    exact wf_set_unchecked h hvalid.2 value
  · cases hs

theorem wf_swap {v v' : BitVec} (h : WF v) {i j : Nat}
    (hs : v.swap i j = some v') : WF v' := by
  unfold BitVec.swap at hs
  split at hs
  · next hvi =>
    split at hs
    · next hvj =>
      rw [BitVec.validate_index, Bool.and_eq_true, decide_eq_true_eq,
        decide_eq_true_eq] at hvi hvj
      cases hs
      have h1 := wf_set_unchecked h hvi.2 (v.get_unchecked j)
      exact wf_set_unchecked h1 (by rw [nbits_set_unchecked]; exact hvj.2) _
    · cases hs
  · cases hs

theorem reachable_wf {v : BitVec} (h : Reachable v) : WF v := by
  induction h with
  | new => exact wf_new
  | with_capacity c => exact wf_with_capacity c
  | from_bytes bytes hb => exact wf_from_bytes hb
  | from_bools bools => exact wf_from_bools bools
  | from_elem len value => exact wf_from_elem len value
  | push v value _ ih => exact wf_push ih value
  | pop v _ ih => exact wf_pop ih
  | set v v' index value _ hs ih => exact wf_set ih hs
  | swap v v' i j _ hs ih => exact wf_swap ih hs
  | truncate v len _ ih => exact wf_truncate ih len
  | resize v new_len value _ ih => exact wf_resize ih new_len value
  | with_bytes_mut v newVec hlen hb _ ih => exact wf_with_bytes_mut ih hlen hb
  | clear v _ => exact wf_clear v

/-- States the invariant checked by the `assert!` inside `pop`
(lib.rs:252-254): when the decremented bit count is byte-aligned, it
equals eight times one less than the byte count, so on well-formed
states the assertion never fires. -/
theorem pop_assert_ok {v : BitVec} (h : WF v) (_hn : v.nbits ≠ 0)
    (ha : (v.nbits - 1) % 8 = 0) : v.nbits - 1 = (v.vec.length - 1) * 8 := by
  obtain ⟨hcount, -, -⟩ := h
  unfold bytes_in_bits at hcount
  omega

/-! Push/pop inverse lemmas. -/

theorem getElem?_eq_some_getD {l : List Nat} {n : Nat} (h : n < l.length) :
    l[n]? = some (l.getD n 0) := by
  rw [List.getElem?_eq_getElem h, List.getD_eq_getElem?_getD, List.getElem?_eq_getElem h]
  rfl

theorem set_getD_self {l : List Nat} {i : Nat} (h : i < l.length) :
    l.set i (l.getD i 0) = l := by
  apply List.ext_getElem?
  intro n
  by_cases hn : i = n
  · subst hn
    rw [List.getElem?_set_self h, getElem?_eq_some_getD h]
  · rw [List.getElem?_set_ne hn]

theorem clear_set_bit {byte r : Nat} (hr : r < 8) (hlt : byte < 256)
    (hbit : byte.testBit r = false) (b : Bool) :
    ((if b then byte ||| 2 ^ r else byte &&& (255 ^^^ 2 ^ r)) &&& (255 ^^^ 2 ^ r))
      = byte := by
  apply Nat.eq_of_testBit_eq
  intro i
  rw [testBit_and_mask hr]
  cases b with
  | true =>
    simp only [if_true, Nat.testBit_or, Nat.testBit_two_pow]
    by_cases h8 : i < 8
    · by_cases hri : r = i
      · subst hri
        simp [hbit]
      · simp [h8, hri]
    · have : byte.testBit i = false := testBit_of_ge_eight hlt (by omega)
      simp [h8, this]
  | false =>
    simp only [Bool.false_eq_true, if_false]
    rw [testBit_and_mask hr]
    by_cases h8 : i < 8
    · by_cases hri : r = i
      · subst hri
        simp [hbit]
      · simp [h8, hri]
    · have : byte.testBit i = false := testBit_of_ge_eight hlt (by omega)
      simp [h8, this]

theorem pop_push {v : BitVec} (h : WF v) (b : Bool) : (v.push b).pop = (some b, v) := by
  obtain ⟨hcount, hb, hz⟩ := h
  unfold BitVec.push
  by_cases h0 : v.nbits % 8 = 0
  · rw [if_pos h0]
    have hlenv : v.vec.length = v.nbits / 8 := by
      unfold bytes_in_bits at hcount; omega
    simp only [BitVec.pop]
    rw [if_neg (by omega : ¬(v.nbits + 1 = 0))]
    rw [if_pos (by omega : (v.nbits + 1 - 1) % 8 = 0)]
    have hsub : v.nbits + 1 - 1 = v.nbits := by omega
    rw [hsub]
    have hdivn : v.nbits / 8 = v.vec.length := hlenv.symm
    have hgu : BitVec.get_unchecked
        ⟨v.nbits + 1, v.vec ++ [if b = true then 1 else 0]⟩ v.nbits = b := by
      rw [get_unchecked_eq_bitAt]
      show bitAt (v.vec ++ [if b = true then 1 else 0]) v.nbits = b
      unfold bitAt
      rw [hdivn, getD_concat_length, (by omega : v.nbits % 8 = 0)]
      cases b <;> decide
    have hsu : (BitVec.set_unchecked
        ⟨v.nbits + 1, v.vec ++ [if b = true then 1 else 0]⟩ v.nbits false).vec
        = v.vec ++ [0] := by
      show ((v.vec ++ [if b = true then 1 else 0]).set (v.nbits / 8)
        ((v.vec ++ [if b = true then 1 else 0]).getD (v.nbits / 8) 0 &&&
          (255 ^^^ 1 <<< (v.nbits % 8)))) = v.vec ++ [0]
      rw [hdivn, getD_concat_length, (by omega : v.nbits % 8 = 0),
        List.set_append_right _ _ (Nat.le_refl _), Nat.sub_self]
      cases b <;> simp
    rw [hgu, hsu, List.dropLast_concat]
  · rw [if_neg h0]
    have hdiv : v.nbits / 8 < v.vec.length := by
      unfold bytes_in_bits at hcount; omega
    have hr : v.nbits % 8 < 8 := Nat.mod_lt _ (by norm_num)
    simp only [BitVec.pop]
    rw [if_neg (by omega : ¬(v.nbits + 1 = 0))]
    rw [if_neg (by omega : ¬((v.nbits + 1 - 1) % 8 = 0))]
    have hsub : v.nbits + 1 - 1 = v.nbits := by omega
    rw [hsub]
    have hbit0 : (v.vec.getD (v.nbits / 8) 0).testBit (v.nbits % 8) = false :=
      hz v.nbits (by omega) (Nat.le_refl _)
    have hgu : BitVec.get_unchecked
        ⟨v.nbits + 1, (v.set_unchecked v.nbits b).vec⟩ v.nbits = b := by
      rw [get_unchecked_eq_bitAt]
      show bitAt (v.set_unchecked v.nbits b).vec v.nbits = b
      rw [bitAt_set_unchecked v v.nbits b hdiv, if_pos rfl]
    have hsu : (BitVec.set_unchecked
        ⟨v.nbits + 1, (v.set_unchecked v.nbits b).vec⟩ v.nbits false).vec = v.vec := by
      show ((v.set_unchecked v.nbits b).vec.set (v.nbits / 8)
        ((v.set_unchecked v.nbits b).vec.getD (v.nbits / 8) 0 &&&
          (255 ^^^ 1 <<< (v.nbits % 8)))) = v.vec
      show ((v.vec.set (v.nbits / 8) _).set (v.nbits / 8)
        ((v.vec.set (v.nbits / 8) _).getD (v.nbits / 8) 0 &&&
          (255 ^^^ 1 <<< (v.nbits % 8)))) = v.vec
      rw [getD_set_self hdiv, List.set_set, Nat.one_shiftLeft]
      rw [clear_set_bit hr (hb _ hdiv) hbit0 b]
      exact set_getD_self hdiv
    rw [hgu, hsu]

theorem pushSeq_append (v : BitVec) (L : List Bool) (b : Bool) :
    pushSeq v (L ++ [b]) = (pushSeq v L).push b := by
  unfold pushSeq
  rw [List.foldl_append]
  rfl

/-! Claim theorems. -/

/-- C1: for every BitVec state reachable from any constructor by any
sequence of push, pop, set, swap, truncate, resize, and with_bytes_mut
operations, every bit at position at or beyond the bit length within the
occupied storage equals 0 (in particular within the final occupied
byte). -/
theorem c1_zero_padding {v : BitVec} (h : Reachable v) :
    ∀ i, v.len ≤ i → i < 8 * v.as_bytes.length → bitAt v.as_bytes i = false :=
  fun i hle hlt => (reachable_wf h).2.2 i hlt hle

theorem c1_zero_padding_witness : bitAt (BitVec.from_elem 3 true).as_bytes 5 = false :=
  c1_zero_padding (Reachable.from_elem 3 true) 5 (by decide) (by decide)

/-- C3: for every BitVec state reachable from any constructor by any
sequence of public operations, the number of storage bytes equals
`ceil(length / 8)`. -/
theorem c3_byte_count {v : BitVec} (h : Reachable v) :
    v.as_bytes.length = (v.len + 7) / 8 :=
  (reachable_wf h).1

theorem c3_byte_count_witness :
    (BitVec.from_bytes [171, 205]).as_bytes.length
      = ((BitVec.from_bytes [171, 205]).len + 7) / 8 :=
  c3_byte_count (Reachable.from_bytes [171, 205] (by decide))

/-- C4: for every byte sequence `bytes`, `from_bytes bytes` has length
`bytes.length * 8` and its `as_bytes` view is exactly `bytes`. -/
theorem c4_from_bytes_round_trip (bytes : List Nat) :
    (BitVec.from_bytes bytes).as_bytes = bytes ∧
    (BitVec.from_bytes bytes).len = bytes.length * 8 := by
  simp [BitVec.from_bytes, BitVec.set_unused_zero, BitVec.as_bytes, BitVec.len,
    Nat.mul_mod_left]

/-- C2, counterexample: on a byte-aligned vector, `push true` appends the
byte `0x01`, not the all-ones byte `0xFF` the claim states. -/
theorem c2_push_counterexample :
    BitVec.new.len % 8 = 0 ∧ (BitVec.new.push true).as_bytes ≠ [255] := by decide

/-- C2, amended: if `length % 8 == 0`, `push value` appends the single
byte `0x01` (only the least significant bit set) when `value` is true
and `0x00` when it is false; otherwise it sets the bit at index `length`
in place; in both cases the length is incremented by 1. -/
theorem c2_push_amended (v : BitVec) (b : Bool) :
    (v.push b).len = v.len + 1 ∧
    (v.len % 8 = 0 → (v.push b).as_bytes = v.as_bytes ++ [if b then 1 else 0]) ∧
    (v.len % 8 ≠ 0 → v.as_bytes.length = bytes_in_bits v.len →
      (v.push b).as_bytes.length = v.as_bytes.length ∧
      ∀ j, bitAt (v.push b).as_bytes j = if j = v.len then b else bitAt v.as_bytes j) := by
  refine ⟨?_, ?_, ?_⟩
  · show (v.push b).nbits = v.nbits + 1
    unfold BitVec.push
    split <;> rfl
  · intro h0
    have h0' : v.nbits % 8 = 0 := h0
    show (v.push b).vec = v.vec ++ [if b then 1 else 0]
    unfold BitVec.push
    rw [if_pos h0']
  · intro h0 hcount
    have h0' : v.nbits % 8 ≠ 0 := h0
    have hcount' : v.vec.length = bytes_in_bits v.nbits := hcount
    have hdiv : v.nbits / 8 < v.vec.length := by
      unfold bytes_in_bits at hcount'
      omega
    constructor
    · show (v.push b).vec.length = v.vec.length
      unfold BitVec.push
      rw [if_neg h0']
      exact length_set_unchecked v v.nbits b
    · intro j
      show bitAt (v.push b).vec j = if j = v.nbits then b else bitAt v.vec j
      unfold BitVec.push
      rw [if_neg h0']
      exact bitAt_set_unchecked v v.nbits b hdiv j

theorem c2_push_amended_witness :
    (BitVec.new.push true).as_bytes = BitVec.new.as_bytes ++ [1] ∧
    bitAt ((BitVec.from_elem 3 true).push true).as_bytes 3 = true := by
  constructor
  · have h := (c2_push_amended BitVec.new true).2.1 rfl
    simpa using h
  · have h := ((c2_push_amended (BitVec.from_elem 3 true) true).2.2 (by decide)
      (by decide)).2 3
    rw [h]
    decide

/-- C5: pushing the booleans of a list `L` onto a well-formed state `S`
and then popping `L.length` times yields exactly the values of `L` in
reverse order and returns the vector to the state `S`. -/
theorem c5_push_pop_duality {S : BitVec} (h : WF S) (L : List Bool) :
    popSeq (pushSeq S L) L.length = (L.reverse.map some, S) := by
  induction L using List.reverseRecOn with
  | nil => rfl
  | append_singleton M b ih =>
    rw [pushSeq_append]
    simp only [List.length_append, List.length_singleton]
    simp only [popSeq]
    rw [pop_push (wf_pushSeq h M) b]
    simp only
    rw [ih]
    simp [List.reverse_append]

theorem c5_push_pop_duality_witness :
    WF BitVec.new ∧
    popSeq (pushSeq BitVec.new [true, false, true]) 3
      = ([some true, some false, some true], BitVec.new) :=
  ⟨wf_new, c5_push_pop_duality wf_new [true, false, true]⟩

/-- C6: pop on an empty vector returns none and leaves the state
unchanged; pop on a well-formed vector of positive length n decrements
the length to n-1, returns the bit that was at index n-1, clears that
bit in storage, and drops the final storage byte exactly when n-1 is a
multiple of 8; concretely, popping twice from bytes ending in 0b11100011
at length 56 gives length 54 and final byte 0b00100011. -/
theorem c6_pop_spec :
    (∀ v : BitVec, v.len = 0 → v.pop = (none, v)) ∧
    (∀ v : BitVec, WF v → 0 < v.len →
      (v.pop).1 = some (v.get_unchecked (v.len - 1)) ∧
      (v.pop).2.len = v.len - 1 ∧
      (v.pop).2.as_bytes.length =
        (if (v.len - 1) % 8 = 0 then v.as_bytes.length - 1 else v.as_bytes.length) ∧
      ((v.len - 1) % 8 ≠ 0 → bitAt (v.pop).2.as_bytes (v.len - 1) = false)) ∧
    (((BitVec.from_bytes
        [0xef, 0xcd, 0xab, 0x89, 0x67, 0x45, 0b11100011]).pop.2.pop.2).len = 54 ∧
      ((BitVec.from_bytes
        [0xef, 0xcd, 0xab, 0x89, 0x67, 0x45, 0b11100011]).pop.2.pop.2).as_bytes
        = [0xef, 0xcd, 0xab, 0x89, 0x67, 0x45, 0b00100011]) := by
  refine ⟨?_, ?_, by decide⟩
  · intro v h0
    have h0' : v.nbits = 0 := h0
    unfold BitVec.pop
    rw [if_pos h0']
  · intro v hwf hpos
    obtain ⟨hcount, hb, hz⟩ := hwf
    have h0 : ¬(v.nbits = 0) := by
      have hpos' : 0 < v.nbits := hpos
      omega
    have hdiv : (v.nbits - 1) / 8 < v.vec.length := by
      unfold bytes_in_bits at hcount
      omega
    unfold BitVec.pop
    rw [if_neg h0]
    by_cases ha : (v.nbits - 1) % 8 = 0
    · rw [if_pos ha]
      refine ⟨rfl, rfl, ?_, ?_⟩
      · show (v.set_unchecked (v.nbits - 1) false).vec.dropLast.length = _
        rw [List.length_dropLast, length_set_unchecked,
          if_pos (show (v.len - 1) % 8 = 0 from ha)]
        rfl
      · intro hcon
        exact absurd ha hcon
    · rw [if_neg ha]
      refine ⟨rfl, rfl, ?_, ?_⟩
      · show (v.set_unchecked (v.nbits - 1) false).vec.length = _
        rw [length_set_unchecked, if_neg (show ¬((v.len - 1) % 8 = 0) from ha)]
        rfl
      · intro hcon
        show bitAt (v.set_unchecked (v.nbits - 1) false).vec (v.len - 1) = false
        rw [bitAt_set_unchecked v (v.nbits - 1) false hdiv,
          if_pos (show v.len - 1 = v.nbits - 1 from rfl)]

theorem c6_pop_spec_witness :
    BitVec.new.pop = (none, BitVec.new) ∧
    (BitVec.from_bytes [0xef]).pop.1
      = some ((BitVec.from_bytes [0xef]).get_unchecked 7) := by
  constructor
  · exact c6_pop_spec.1 BitVec.new rfl
  · exact (c6_pop_spec.2.1 (BitVec.from_bytes [0xef]) (by decide) (by decide)).1

/-- C7: get returns none exactly when the index is at or beyond the
length and otherwise the bit at byte index/8, offset index%8 from the
least significant bit; set panics (modelled as none) exactly when the
index is at or beyond the length, and otherwise mutates in place via the
unchecked setter. -/
theorem c7_get_set_bounds (v : BitVec) (index : Nat) (value : Bool) :
    (v.get index = none ↔ v.len ≤ index) ∧
    (index < v.len →
      v.get index = some ((v.as_bytes.getD (index / 8) 0).testBit (index % 8))) ∧
    (WF v → (v.set index value = none ↔ v.len ≤ index)) ∧
    (WF v → index < v.len → v.set index value = some (v.set_unchecked index value)) := by
  have hlen : v.len = v.nbits := rfl
  refine ⟨?_, ?_, ?_, ?_⟩
  · unfold BitVec.get
    by_cases h : index < v.len
    · rw [if_pos h]
      simp
      omega
    · rw [if_neg h]
      simp
      omega
  · intro h
    unfold BitVec.get
    rw [if_pos h, get_unchecked_eq_bitAt]
    rfl
  · intro hwf
    have hcount : v.vec.length = bytes_in_bits v.nbits := hwf.1
    have h8 : v.nbits ≤ v.vec.length * 8 := by
      unfold bytes_in_bits at hcount
      omega
    unfold BitVec.set BitVec.validate_index
    by_cases h : index < v.nbits
    · rw [if_pos (by simp [h8, h])]
      simp
      omega
    · rw [if_neg (by simp; omega)]
      simp
      omega
  · intro hwf h
    have hcount : v.vec.length = bytes_in_bits v.nbits := hwf.1
    have h8 : v.nbits ≤ v.vec.length * 8 := by
      unfold bytes_in_bits at hcount
      omega
    have h' : index < v.nbits := h
    unfold BitVec.set BitVec.validate_index
    rw [if_pos (by simp [h8, h'])]

theorem c7_get_set_bounds_witness :
    (BitVec.from_bytes [171]).get 2
      = some (((BitVec.from_bytes [171]).as_bytes.getD 0 0).testBit 2) ∧
    (BitVec.from_bytes [171]).set 9 false = none := by
  constructor
  · exact (c7_get_set_bounds (BitVec.from_bytes [171]) 2 false).2.1 (by decide)
  · exact ((c7_get_set_bounds (BitVec.from_bytes [171]) 9 false).2.2.1
      (by decide)).mpr (by decide)

/-- C10: on a well-formed vector, a successful in-bounds set leaves the
length unchanged, leaves the bit at every other index unchanged, and a
subsequent get at the index returns the written value. -/
theorem c10_set_frame {v v' : BitVec} {index : Nat} {value : Bool}
    (hwf : WF v) (hi : index < v.len) (hs : v.set index value = some v') :
    v'.len = v.len ∧ v'.get index = some value ∧
    ∀ j, j ≠ index → v'.get j = v.get j := by
  obtain ⟨hcount, hb, hz⟩ := hwf
  have hcount' : v.vec.length = bytes_in_bits v.nbits := hcount
  have hi' : index < v.nbits := hi
  have hdiv : index / 8 < v.vec.length := by
    unfold bytes_in_bits at hcount'
    omega
  have h8 : v.nbits ≤ v.vec.length * 8 := by
    unfold bytes_in_bits at hcount'
    omega
  have hv' : v' = v.set_unchecked index value := by
    unfold BitVec.set BitVec.validate_index at hs
    rw [if_pos (by simp [h8, hi'])] at hs
    exact (Option.some.inj hs).symm
  subst hv'
  refine ⟨rfl, ?_, ?_⟩
  · unfold BitVec.get
    rw [if_pos (show index < (v.set_unchecked index value).len from hi'),
      get_unchecked_eq_bitAt, bitAt_set_unchecked v index value hdiv, if_pos rfl]
  · intro j hj
    unfold BitVec.get
    by_cases hjl : j < v.len
    · rw [if_pos (show j < (v.set_unchecked index value).len from hjl), if_pos hjl,
        get_unchecked_eq_bitAt, get_unchecked_eq_bitAt,
        bitAt_set_unchecked v index value hdiv, if_neg hj]
    · rw [if_neg (show ¬j < (v.set_unchecked index value).len from hjl), if_neg hjl]

theorem c10_set_frame_witness :
    ∃ w : BitVec, (BitVec.from_bytes [171]).set 1 true = some w ∧
      w.len = (BitVec.from_bytes [171]).len ∧ w.get 1 = some true ∧
      w.get 3 = (BitVec.from_bytes [171]).get 3 := by
  refine ⟨(BitVec.from_bytes [171]).set_unchecked 1 true, by decide, ?_⟩
  have h := @c10_set_frame (BitVec.from_bytes [171])
    ((BitVec.from_bytes [171]).set_unchecked 1 true) 1 true
    (by decide) (by decide) (by decide)
  exact ⟨h.1, h.2.1, h.2.2 3 (by decide)⟩

theorem nth_eq (it : Iter) (k : Nat) :
    it.nth k = Iter.next
      { it with
        index := if k ≥ it.vec.nbits - it.index then it.vec.nbits
          else it.index + k } := rfl

theorem next_ge {it : Iter} (h : it.vec.nbits ≤ it.index) : it.next = (none, it) := by
  unfold Iter.next
  rw [if_pos (show it.index ≥ it.vec.nbits from h)]

theorem next_lt {it : Iter} (h : it.index < it.vec.nbits) :
    it.next = (some (it.vec.get_unchecked it.index),
      { it with index := it.index + 1 }) := by
  unfold Iter.next
  rw [if_neg (show ¬(it.index ≥ it.vec.nbits) from by omega)]

/-- C8: for an iterator state with cursor at most the bit length, nth k
moves the cursor forward by k+1 positions saturating at the length,
yields the bit at position cursor+k when that is below the length, and
otherwise yields none with the cursor pinned at the length, so that
every subsequent nth call also yields none and leaves the iterator
unchanged. -/
theorem c8_nth_spec (it : Iter) (k : Nat) (h : it.index ≤ it.vec.nbits) :
    (it.nth k).2.index = min (it.index + k + 1) it.vec.nbits ∧
    (it.index + k < it.vec.nbits →
      (it.nth k).1 = some (it.vec.get_unchecked (it.index + k))) ∧
    (it.vec.nbits ≤ it.index + k →
      (it.nth k).1 = none ∧ (it.nth k).2.index = it.vec.nbits ∧
      ∀ k₂, ((it.nth k).2.nth k₂).1 = none ∧
        ((it.nth k).2.nth k₂).2 = (it.nth k).2) := by
  by_cases hc : k ≥ it.vec.nbits - it.index
  · have h1 : it.nth k = (none, { it with index := it.vec.nbits }) := by
      rw [nth_eq, if_pos hc]
      exact next_ge (Nat.le_refl _)
    have h2 : ∀ k₂ : Nat, Iter.nth { it with index := it.vec.nbits } k₂
        = (none, { it with index := it.vec.nbits }) := by
      intro k₂
      rw [nth_eq, if_pos (by omega : k₂ ≥ it.vec.nbits - it.vec.nbits)]
      exact next_ge (Nat.le_refl _)
    rw [h1]
    refine ⟨?_, ?_, ?_⟩
    · show it.vec.nbits = min (it.index + k + 1) it.vec.nbits
      omega
    · intro hcon
      exact absurd hcon (by omega)
    · intro _
      refine ⟨rfl, rfl, fun k₂ => ⟨?_, ?_⟩⟩
      · show (Iter.nth { it with index := it.vec.nbits } k₂).1 = none
        rw [h2 k₂]
      · show (Iter.nth { it with index := it.vec.nbits } k₂).2
          = ({ it with index := it.vec.nbits } : Iter)
        rw [h2 k₂]
  · have hlt : it.index + k < it.vec.nbits := by omega
    have h1 : it.nth k = (some (it.vec.get_unchecked (it.index + k)),
        { it with index := it.index + k + 1 }) := by
      rw [nth_eq, if_neg hc]
      exact next_lt (show it.index + k < it.vec.nbits from hlt)
    rw [h1]
    refine ⟨?_, fun _ => rfl, ?_⟩
    · show it.index + k + 1 = min (it.index + k + 1) it.vec.nbits
      omega
    · intro hcon
      exact absurd hlt (by omega)

theorem c8_nth_spec_witness :
    ((BitVec.from_bytes [171]).iter.nth 2).1
      = some ((BitVec.from_bytes [171]).get_unchecked 2) ∧
    ((BitVec.from_bytes [171]).iter.nth 9).1 = none := by
  constructor
  · exact (c8_nth_spec (BitVec.from_bytes [171]).iter 2 (by decide)).2.1 (by decide)
  · exact ((c8_nth_spec (BitVec.from_bytes [171]).iter 9 (by decide)).2.2
      (by decide)).1

/-- C9: the derived value equality compares the (length, bytes) pair,
holding exactly when both the lengths and the backing byte sequences are
equal; and for two well-formed (zero-padded) vectors of equal length,
byte-level equality of the backing storage holds exactly when get agrees
at every index. -/
theorem c9_equality (a b : BitVec) :
    (BitVec.beq a b = true ↔ a.len = b.len ∧ a.as_bytes = b.as_bytes) ∧
    (WF a → WF b → a.len = b.len →
      (a.as_bytes = b.as_bytes ↔ ∀ i, a.get i = b.get i)) := by
  constructor
  · unfold BitVec.beq
    simp [BitVec.len, BitVec.as_bytes]
  · intro hwa hwb hlen
    have hlen' : a.nbits = b.nbits := hlen
    constructor
    · intro hv i
      have hab : a = b := by
        obtain ⟨na, va⟩ := a
        obtain ⟨nb, vb⟩ := b
        have h1 : na = nb := hlen'
        have h2 : va = vb := hv
        rw [h1, h2]
      rw [hab]
    · intro hg
      have hcount_a : a.vec.length = bytes_in_bits a.nbits := hwa.1
      have hcount_b : b.vec.length = bytes_in_bits b.nbits := hwb.1
      have hlength : a.vec.length = b.vec.length := by
        rw [hcount_a, hcount_b, hlen']
      show a.vec = b.vec
      apply List.ext_getElem?
      intro n
      rcases Nat.lt_or_ge n a.vec.length with hn | hn
      · rw [getElem?_eq_some_getD hn, getElem?_eq_some_getD (hlength ▸ hn)]
        congr 1
        apply byte_eq_of_testBit_eq (hwa.2.1 n hn) (hwb.2.1 n (hlength ▸ hn))
        intro kk hkk
        have hpos : (8 * n + kk) / 8 = n := by omega
        have hmod : (8 * n + kk) % 8 = kk := by omega
        have hbitA : (a.vec.getD n 0).testBit kk = bitAt a.vec (8 * n + kk) := by
          unfold bitAt
          rw [hpos, hmod]
        have hbitB : (b.vec.getD n 0).testBit kk = bitAt b.vec (8 * n + kk) := by
          unfold bitAt
          rw [hpos, hmod]
        rw [hbitA, hbitB]
        rcases Nat.lt_or_ge (8 * n + kk) a.nbits with hlt | hge
        · have h1 := hg (8 * n + kk)
          unfold BitVec.get at h1
          rw [if_pos (show 8 * n + kk < a.len from hlt),
            if_pos (show 8 * n + kk < b.len from
              (by omega : 8 * n + kk < b.nbits))] at h1
          have h2 := Option.some.inj h1
          rw [get_unchecked_eq_bitAt, get_unchecked_eq_bitAt] at h2
          exact h2
        · rw [hwa.2.2 _ (by omega) hge, hwb.2.2 _ (by omega) (by omega)]
      · rw [List.getElem?_eq_none (by omega), List.getElem?_eq_none (by omega)]

theorem c9_equality_witness :
    (BitVec.from_bytes [171]).as_bytes = (BitVec.from_bytes [171]).as_bytes
      ↔ ∀ i, (BitVec.from_bytes [171]).get i = (BitVec.from_bytes [171]).get i :=
  (c9_equality (BitVec.from_bytes [171]) (BitVec.from_bytes [171])).2
    (by decide) (by decide) rfl

end BitvecRs
